import Mathlib

/-!
Shallow embedding of the project-structure analyzer of the README generator
(src/app.py): the GitHub-URL parser and remote tree summarizer
(fetch_github_repo_structure), the single-file content fetch
(fetch_github_file_content), and the local directory walker
(analyze_local_directory).  Strings are modelled as List Char; the ASCII
fragment of Python's str.lower is modelled by Char.toLower.  Network
responses are inputs of the embedded functions (the code under proof is
everything the Python function does with a response once it has it).
-/

namespace App

/-- Model of Python str.replace with a nonempty pattern: replace every
occurrence of pat by rep, scanning left to right, never rescanning
replaced text. -/
def replaceAll (pat rep : List Char) : List Char → List Char
  | [] => []
  | c :: rest =>
    if pat ≠ [] ∧ pat.isPrefixOf (c :: rest) then
      rep ++ replaceAll pat rep (rest.drop (pat.length - 1))
    else
      c :: replaceAll pat rep rest
termination_by l => l.length
decreasing_by
  all_goals simp only [List.length_drop, List.length_cons]
  all_goals omega

/-- Does pat occur as a contiguous substring (Python `in`)? -/
def containsSub (pat : List Char) : List Char → Bool
  | [] => pat.isEmpty
  | c :: rest => pat.isPrefixOf (c :: rest) || containsSub pat rest

def isSlash (c : Char) : Bool := c == '/'

/-- Remove trailing slashes. -/
def dropTrail (s : List Char) : List Char := (s.reverse.dropWhile isSlash).reverse

/-- Model of Python str.strip with a slash argument: remove leading and trailing slashes. -/
def stripSlashes (s : List Char) : List Char := dropTrail (s.dropWhile isSlash)

/-- Model of Python str.split on a slash. -/
def splitOnSlash : List Char → List (List Char)
  | [] => [[]]
  | c :: rest =>
    if isSlash c then [] :: splitOnSlash rest
    else
      match splitOnSlash rest with
      | [] => [[c]]
      | p :: ps => (c :: p) :: ps

/-- Model of os.path.basename on POSIX: everything after the last slash. -/
def basename (p : List Char) : List Char := (p.reverse.takeWhile (fun c => !isSlash c)).reverse

/-- Model of pathlib.PurePath.suffix applied to a bare file name: the part
from the last dot on, unless the dot is the first character or the last
character (then the suffix is empty). -/
def pySuffix (name : List Char) : List Char :=
  let afterRev := name.reverse.takeWhile (fun c => !(c == '.'))
  if afterRev.length + 1 < name.length ∧ 0 < afterRev.length then
    '.' :: afterRev.reverse
  else []

/-- ASCII model of Python str.lower. -/
def pyLower (s : List Char) : List Char := s.map Char.toLower

/-- Model of os.path.join for a relative non-empty second component. -/
def pyJoin (a b : List Char) : List Char := a ++ '/' :: b

/-- The dependency-manifest recognition list (app.py lines 86 and 159). -/
def reqNames : List (List Char) :=
  ["requirements.txt".toList, "requirements-dev.txt".toList,
   "pyproject.toml".toList, "setup.py".toList]

/-- The package-manifest recognition list (app.py lines 89 and 162). -/
def pkgNames : List (List Char) :=
  ["package.json".toList, "package-lock.json".toList, "yarn.lock".toList]

/-- The container-definition recognition list (app.py lines 92 and 165). -/
def dockerNames : List (List Char) :=
  ["dockerfile".toList, "docker-compose.yml".toList, "docker-compose.yaml".toList]

/-- The fields of the analysis dictionary shared by the remote and local
modes of app.py. -/
structure Analysis where
  files : List (List Char)
  directories : List (List Char)
  languages : List (List Char × Nat)
  file_count : Nat
  has_requirements : Bool
  has_package_json : Bool
  has_dockerfile : Bool
  has_tests : Bool
  config_files : List (List Char)
deriving DecidableEq

def initAnalysis : Analysis :=
  { files := [], directories := [], languages := [], file_count := 0,
    has_requirements := false, has_package_json := false,
    has_dockerfile := false, has_tests := false, config_files := [] }

/-- Python dict update languages[ext] = languages.get(ext, 0) + 1,
on an insertion-ordered association list. -/
def bumpExt (m : List (List Char × Nat)) (ext : List Char) : List (List Char × Nat) :=
  match m with
  | [] => [(ext, 1)]
  | (k, v) :: rest => if k = ext then (k, v + 1) :: rest else (k, v) :: bumpExt rest ext

/-- app.py line 77 / 151: every file increments file_count. -/
def bumpCount (a : Analysis) : Analysis := { a with file_count := a.file_count + 1 }

/-- app.py lines 79-82 / 153-156: a nonempty lowercased suffix updates the
extension histogram. -/
def bumpLang (a : Analysis) (name : List Char) : Analysis :=
  let ext := pyLower (pySuffix name)
  if ext ≠ [] then { a with languages := bumpExt a.languages ext } else a

/-- app.py lines 85-96 / 158-169: the marker-file if/elif chain. -/
def classify (a : Analysis) (name : List Char) : Analysis :=
  let fl := pyLower name
  if fl ∈ reqNames then
    { a with has_requirements := true, config_files := a.config_files ++ [name] }
  else if fl ∈ pkgNames then
    { a with has_package_json := true, config_files := a.config_files ++ [name] }
  else if fl ∈ dockerNames then
    { a with has_dockerfile := true, config_files := a.config_files ++ [name] }
  else if containsSub "test".toList fl || "test_".toList.isPrefixOf name then
    { a with has_tests := true }
  else a

/-- app.py lines 98-99 / 171-172: sample list of at most 100 file paths. -/
def sampleFile (a : Analysis) (stored : List Char) : Analysis :=
  if a.files.length < 100 then { a with files := a.files ++ [stored] } else a

/-- The per-file body shared by the remote blob branch (app.py 77-99, where
name is the basename of the path) and the local walk (app.py 150-172, where
the stored path is rel_root joined with the name). -/
def processFile (a : Analysis) (stored name : List Char) : Analysis :=
  sampleFile (classify (bumpLang (bumpCount a) name) name) stored

/-- One entry of the recursive git tree listing. -/
structure TreeItem where
  type : List Char
  path : List Char
deriving DecidableEq

/-- app.py lines 75-102: the body of the loop over tree entries. -/
def processItem (a : Analysis) (item : TreeItem) : Analysis :=
  if item.type = "blob".toList then
    processFile a item.path (basename item.path)
  else if item.type = "tree".toList ∧ a.directories.length < 50 then
    { a with directories := a.directories ++ [item.path] }
  else a

/-- The JSON body of the repository-metadata response, with the fields
app.py reads. -/
structure RepoMetaJson where
  message : Option (List Char)
  name : List Char
  description : Option (List Char)
  language : Option (List Char)
  stargazers_count : Nat
  forks_count : Nat
  open_issues_count : Nat
  topics : List (List Char)
  default_branch : List Char

structure MetaResponse where
  status : Nat
  json : RepoMetaJson

/-- The tree response: its status, the provider-supplied message when the
call failed, and the entry list. -/
structure TreeResponse where
  status : Nat
  message : Option (List Char)
  tree : List TreeItem

/-- The remote analysis dictionary: the shared core plus the metadata
fields copied at app.py lines 54-73. -/
structure RemoteAnalysis where
  core : Analysis
  name : List Char
  description : List Char
  language : List Char
  stars : Nat
  forks : Nat
  open_issues : Nat
  topics : List (List Char)
  owner : List Char
  repo_url : List Char

def natChars (n : Nat) : List Char := (Nat.repr n).toList

def httpsMarker : List Char := "https://github.com/".toList

def httpMarker : List Char := "http://github.com/".toList

/-- app.py lines 25-29: strip the scheme/host markers by str.replace, strip
slashes, demand a slash, take the first two slash-separated components. -/
def parseGithubUrl (url : List Char) : Option (List Char × List Char) :=
  let parts := stripSlashes (replaceAll httpMarker [] (replaceAll httpsMarker [] url))
  if '/' ∈ parts then
    match splitOnSlash parts with
    | owner :: repo :: _ => some (owner, repo)
    | _ => none
  else none

/-- The successful result of fetch_github_repo_structure (app.py 54-104). -/
def mkRemoteAnalysis (github_url owner : List Char) (mj : RepoMetaJson)
    (tree : List TreeItem) : RemoteAnalysis :=
  { core := tree.foldl processItem initAnalysis,
    name := mj.name,
    description := mj.description.getD "No description".toList,
    language := mj.language.getD "Unknown".toList,
    stars := mj.stargazers_count,
    forks := mj.forks_count,
    open_issues := mj.open_issues_count,
    topics := mj.topics,
    owner := owner,
    repo_url := github_url }

/-- app.py lines 21-104.  The two HTTP responses are inputs: the function
models everything the Python code does with them.  Except.error carries the
error string returned as the second component of the Python pair. -/
def fetch_github_repo_structure (github_url : List Char) (metaResp : MetaResponse)
    (treeResp : TreeResponse) : Except (List Char) RemoteAnalysis :=
  match parseGithubUrl github_url with
  | none => .error "Invalid GitHub URL format".toList
  | some (owner, _) =>
    if metaResp.status ≠ 200 then
      .error ("Error: ".toList ++ natChars metaResp.status ++ " - ".toList
        ++ metaResp.json.message.getD "Unknown error".toList)
    else if treeResp.status ≠ 200 then
      .error ("Error fetching tree: ".toList ++ natChars treeResp.status)
    else
      .ok (mkRemoteAnalysis github_url owner metaResp.json treeResp.tree)

/-- The content-endpoint response for fetch_github_file_content: its status
and the result of base64-decoding the content field and decoding it as
UTF-8 (none when either decoding step raises). -/
structure ContentResponse where
  status : Nat
  decoded : Option (List Char)

/-- app.py lines 109-124.  The input is none when the transport raised; the
broad except turns every failure into none. -/
def fetch_github_file_content : Option ContentResponse → Option (List Char)
  | none => none
  | some r =>
    if r.status = 200 then
      match r.decoded with
      | some d => some (d.take 2000)
      | none => none
    else none

/-- app.py lines 143-146: the pruned directory names. -/
def denyList : List (List Char) :=
  [".git".toList, "node_modules".toList, "__pycache__".toList, "venv".toList,
   ".venv".toList, "dist".toList, "build".toList, ".next".toList, ".idea".toList]

mutual

/-- A directory on disk: its regular files and its named subdirectories. -/
inductive FsDir : Type where
  | mk : List (List Char) → FsEntries → FsDir

/-- The named subdirectories of a directory, in listing order. -/
inductive FsEntries : Type where
  | nil : FsEntries
  | cons : List Char → FsDir → FsEntries → FsEntries

end

/-- The subdirectory names surviving the deny-list pruning of app.py 143-146. -/
def keptNames : FsEntries → List (List Char)
  | .nil => []
  | .cons n _ rest => if n ∈ denyList then keptNames rest else n :: keptNames rest

/-- os.path.relpath of a child directory: at the top level relpath is a dot
and the child is its bare name; below, names are slash-joined. -/
def childRel (rel n : List Char) : List Char := if rel = ['.'] then n else pyJoin rel n

/-- One local file (app.py 150-172): the stored path is os.path.join of
rel_root and the name. -/
def processLocalFile (rel : List Char) (a : Analysis) (f : List Char) : Analysis :=
  processFile a (pyJoin rel f) f

/-- app.py lines 174-175: when the directory sample is below 50, the whole
pruned subdirectory batch is appended at once. -/
def dirStep (rel : List Char) (a : Analysis) (entries : FsEntries) : Analysis :=
  if a.directories.length < 50 then
    { a with directories := a.directories ++ (keptNames entries).map (pyJoin rel) }
  else a

mutual

/-- The body of the os.walk loop of app.py 142-175 for one directory:
process every file, then extend the directory sample with the whole pruned
subdirectory batch when the sample is below 50, then recurse top-down into
the pruned subdirectories. -/
def walkDir (rel : List Char) (a : Analysis) : FsDir → Analysis
  | .mk fs entries =>
    walkEntries rel (dirStep rel (fs.foldl (processLocalFile rel) a) entries) entries

def walkEntries (rel : List Char) (a : Analysis) : FsEntries → Analysis
  | .nil => a
  | .cons n d rest =>
    if n ∈ denyList then walkEntries rel a rest
    else walkEntries rel (walkDir (childRel rel n) a d) rest

end

/-- app.py lines 126-180 applied to a readable directory tree. -/
def analyze_local_directory (root : FsDir) : Analysis :=
  walkDir ['.'] initAnalysis root

mutual

/-- The number of files a pruned walk of the directory observes. -/
def countFilesD : FsDir → Nat
  | .mk fs entries => fs.length + countFilesE entries

def countFilesE : FsEntries → Nat
  | .nil => 0
  | .cons n d rest => (if n ∈ denyList then 0 else countFilesD d) + countFilesE rest

end

mutual

/-- Delete every deny-listed subdirectory, recursively. -/
def removeDeniedD : FsDir → FsDir
  | .mk fs entries => .mk fs (removeDeniedE entries)

def removeDeniedE : FsEntries → FsEntries
  | .nil => .nil
  | .cons n d rest =>
    if n ∈ denyList then removeDeniedE rest
    else .cons n (removeDeniedD d) (removeDeniedE rest)

end

/-- Not an ASCII uppercase letter (code point outside 65-90). -/
def notUpperChar (c : Char) : Prop := ¬(65 ≤ c.toNat ∧ c.toNat ≤ 90)

/-- A well-formed histogram key: it starts with the separator dot and
contains no ASCII uppercase letter. -/
def isExtKey (k : List Char) : Prop := (∃ t, k = '.' :: t) ∧ ∀ c ∈ k, notUpperChar c

/-- The number of blob entries of a tree listing. -/
def countBlobs (tree : List TreeItem) : Nat :=
  (tree.filter (fun i => i.type == "blob".toList)).length

/-- The tree of the C4 scenario: exactly the four files of the spec. -/
def c4Tree : List TreeItem :=
  [⟨"blob".toList, "requirements.txt".toList⟩,
   ⟨"blob".toList, "src/main.py".toList⟩,
   ⟨"blob".toList, "test_main.py".toList⟩,
   ⟨"blob".toList, "Dockerfile".toList⟩]

/-- A plain metadata body for concrete scenarios. -/
def sampleMeta : RepoMetaJson :=
  { message := none, name := "widget".toList, description := none,
    language := none, stargazers_count := 0, forks_count := 0,
    open_issues_count := 0, topics := [], default_branch := "main".toList }

/-- A failing tree response whose provider message is available. -/
def c7TreeResp : TreeResponse :=
  { status := 403, message := some "API rate limit exceeded".toList, tree := [] }

/-- n sibling subdirectories named d0, d1, ..., all empty, none denied. -/
def mkEntries : Nat → FsEntries
  | 0 => .nil
  | n + 1 => .cons ("d".toList ++ natChars n) (.mk [] .nil) (mkEntries n)

/-- A directory with 51 subdirectories and no files. -/
def c1Local : FsDir := .mk [] (mkEntries 51)

/-- The C6 scenario: one top-level index.js and a node_modules subtree that
even contains a package manifest. -/
def c6Local : FsDir :=
  .mk ["index.js".toList]
    (.cons "node_modules".toList (.mk ["package.json".toList, "lib.js".toList] .nil) .nil)

theorem charToNat_ofNat_lt (n : Nat) (h : n < 55296) : (Char.ofNat n).toNat = n := by
  rw [Char.ofNat, dif_pos (Or.inl h)]
  rfl

theorem toLower_notUpper (c : Char) : notUpperChar c.toLower := by
  simp only [Char.toLower]
  by_cases h : c.toNat ≥ 65 ∧ c.toNat ≤ 90
  · rw [if_pos h]
    have h2 := charToNat_ofNat_lt (c.toNat + 32) (by omega)
    simp only [notUpperChar, h2]
    omega
  · rw [if_neg h]
    simp only [notUpperChar]
    omega

theorem pySuffix_shape (name : List Char) :
    pySuffix name = [] ∨ ∃ t, pySuffix name = '.' :: t := by
  simp only [pySuffix]
  split
  · exact Or.inr ⟨_, rfl⟩
  · exact Or.inl rfl

theorem isExtKey_of_suffix (name : List Char) (h : pySuffix name ≠ []) :
    isExtKey (pyLower (pySuffix name)) := by
  rcases pySuffix_shape name with h0 | ⟨t, ht⟩
  · exact absurd h0 h
  · rw [ht]
    constructor
    · refine ⟨pyLower t, ?_⟩
      have hdot : Char.toLower '.' = '.' := by decide
      simp [pyLower, hdot]
    · intro c hc
      simp only [pyLower, List.mem_map] at hc
      obtain ⟨x, _, rfl⟩ := hc
      exact toLower_notUpper x

theorem bumpExt_good (e : List Char) (he : isExtKey e) :
    ∀ (m : List (List Char × Nat)), (∀ kv ∈ m, isExtKey kv.1) →
      ∀ kv ∈ bumpExt m e, isExtKey kv.1 := by
  intro m
  induction m with
  | nil =>
    intro _ kv hkv
    simp only [bumpExt, List.mem_singleton] at hkv
    rw [hkv]
    exact he
  | cons p rest ih =>
    intro hm kv hkv
    obtain ⟨k, v⟩ := p
    simp only [bumpExt] at hkv
    split at hkv
    · rcases List.mem_cons.mp hkv with h1 | h1
      · rw [h1]; exact hm (k, v) (List.mem_cons_self _ _)
      · exact hm kv (List.mem_cons_of_mem _ h1)
    · rcases List.mem_cons.mp hkv with h1 | h1
      · rw [h1]; exact hm (k, v) (List.mem_cons_self _ _)
      · exact ih (fun kv h => hm kv (List.mem_cons_of_mem _ h)) kv h1

theorem bumpCount_shape (a : Analysis) :
    (bumpCount a).files = a.files ∧ (bumpCount a).directories = a.directories ∧
    (bumpCount a).languages = a.languages ∧ (bumpCount a).file_count = a.file_count + 1 ∧
    (bumpCount a).has_tests = a.has_tests := by
  simp [bumpCount]

theorem bumpLang_shape (a : Analysis) (n : List Char) :
    (bumpLang a n).files = a.files ∧ (bumpLang a n).directories = a.directories ∧
    (bumpLang a n).file_count = a.file_count ∧ (bumpLang a n).has_tests = a.has_tests := by
  simp only [bumpLang]
  split <;> simp

theorem bumpLang_languages_good (a : Analysis) (n : List Char)
    (h : ∀ kv ∈ a.languages, isExtKey kv.1) :
    ∀ kv ∈ (bumpLang a n).languages, isExtKey kv.1 := by
  simp only [bumpLang]
  split
  · next hne =>
    have hk : isExtKey (pyLower (pySuffix n)) := by
      apply isExtKey_of_suffix
      intro h0
      simp [pyLower, h0] at hne
    exact bumpExt_good _ hk a.languages h
  · exact h

theorem bumpLang_noext (a : Analysis) (n : List Char) (h : pySuffix n = []) :
    (bumpLang a n).languages = a.languages := by
  simp [bumpLang, pyLower, h]

theorem classify_shape (a : Analysis) (n : List Char) :
    (classify a n).files = a.files ∧ (classify a n).directories = a.directories ∧
    (classify a n).languages = a.languages ∧ (classify a n).file_count = a.file_count := by
  simp only [classify]
  repeat' split
  all_goals simp

theorem classify_tests_of_marker (a : Analysis) (n : List Char)
    (h : pyLower n ∈ reqNames ∨ pyLower n ∈ pkgNames ∨ pyLower n ∈ dockerNames) :
    (classify a n).has_tests = a.has_tests := by
  simp only [classify]
  by_cases h1 : pyLower n ∈ reqNames
  · simp [h1]
  · by_cases h2 : pyLower n ∈ pkgNames
    · simp [h1, h2]
    · by_cases h3 : pyLower n ∈ dockerNames
      · simp [h1, h2, h3]
      · tauto

theorem sampleFile_shape (a : Analysis) (s : List Char) :
    (sampleFile a s).directories = a.directories ∧
    (sampleFile a s).languages = a.languages ∧
    (sampleFile a s).file_count = a.file_count ∧
    (sampleFile a s).has_tests = a.has_tests := by
  simp only [sampleFile]
  split <;> simp

theorem sampleFile_files_le (a : Analysis) (s : List Char) (h : a.files.length ≤ 100) :
    (sampleFile a s).files.length ≤ 100 := by
  simp only [sampleFile]
  split
  · next hlt => simp only [List.length_append, List.length_singleton]; omega
  · exact h

theorem processFile_files_le (a : Analysis) (s n : List Char) (h : a.files.length ≤ 100) :
    (processFile a s n).files.length ≤ 100 := by
  apply sampleFile_files_le
  rw [(classify_shape _ n).1, (bumpLang_shape _ n).1, (bumpCount_shape a).1]
  exact h

theorem processFile_directories (a : Analysis) (s n : List Char) :
    (processFile a s n).directories = a.directories := by
  rw [processFile, (sampleFile_shape _ s).1, (classify_shape _ n).2.1,
    (bumpLang_shape _ n).2.1, (bumpCount_shape a).2.1]

theorem processFile_count (a : Analysis) (s n : List Char) :
    (processFile a s n).file_count = a.file_count + 1 := by
  rw [processFile, (sampleFile_shape _ s).2.2.1, (classify_shape _ n).2.2.2,
    (bumpLang_shape _ n).2.2.1, (bumpCount_shape a).2.2.2.1]

theorem processFile_languages_good (a : Analysis) (s n : List Char)
    (h : ∀ kv ∈ a.languages, isExtKey kv.1) :
    ∀ kv ∈ (processFile a s n).languages, isExtKey kv.1 := by
  rw [processFile, (sampleFile_shape _ s).2.1, (classify_shape _ n).2.2.1]
  apply bumpLang_languages_good
  rw [(bumpCount_shape a).2.2.1]
  exact h

theorem processFile_noext (a : Analysis) (s n : List Char) (h : pySuffix n = []) :
    (processFile a s n).languages = a.languages := by
  rw [processFile, (sampleFile_shape _ s).2.1, (classify_shape _ n).2.2.1,
    bumpLang_noext _ _ h, (bumpCount_shape a).2.2.1]

theorem processFile_tests_of_marker (a : Analysis) (s n : List Char)
    (h : pyLower n ∈ reqNames ∨ pyLower n ∈ pkgNames ∨ pyLower n ∈ dockerNames) :
    (processFile a s n).has_tests = a.has_tests := by
  rw [processFile, (sampleFile_shape _ s).2.2.2, classify_tests_of_marker _ n h,
    (bumpLang_shape _ n).2.2.2, (bumpCount_shape a).2.2.2.2]

theorem processItem_files_le (a : Analysis) (i : TreeItem) (h : a.files.length ≤ 100) :
    (processItem a i).files.length ≤ 100 := by
  simp only [processItem]
  split
  · exact processFile_files_le _ _ _ h
  · split
    · exact h
    · exact h

theorem processItem_dirs_le (a : Analysis) (i : TreeItem) (h : a.directories.length ≤ 50) :
    (processItem a i).directories.length ≤ 50 := by
  simp only [processItem]
  split
  · rw [processFile_directories]; exact h
  · split
    · next hc => simp only [List.length_append, List.length_singleton]; omega
    · exact h

theorem processItem_count (a : Analysis) (i : TreeItem) :
    (processItem a i).file_count =
      a.file_count + (if i.type = "blob".toList then 1 else 0) := by
  simp only [processItem]
  split
  · rw [processFile_count]
  · split <;> simp

theorem processItem_languages_good (a : Analysis) (i : TreeItem)
    (h : ∀ kv ∈ a.languages, isExtKey kv.1) :
    ∀ kv ∈ (processItem a i).languages, isExtKey kv.1 := by
  simp only [processItem]
  split
  · exact processFile_languages_good _ _ _ h
  · split
    · simpa using h
    · exact h

theorem foldl_pi_files_le (tree : List TreeItem) :
    ∀ a : Analysis, a.files.length ≤ 100 →
      (tree.foldl processItem a).files.length ≤ 100 := by
  induction tree with
  | nil => intro a h; simpa using h
  | cons i rest ih =>
    intro a h
    rw [List.foldl_cons]
    exact ih _ (processItem_files_le a i h)

theorem foldl_pi_dirs_le (tree : List TreeItem) :
    ∀ a : Analysis, a.directories.length ≤ 50 →
      (tree.foldl processItem a).directories.length ≤ 50 := by
  induction tree with
  | nil => intro a h; simpa using h
  | cons i rest ih =>
    intro a h
    rw [List.foldl_cons]
    exact ih _ (processItem_dirs_le a i h)

theorem countBlobs_cons (i : TreeItem) (tree : List TreeItem) :
    countBlobs (i :: tree) = (if i.type = "blob".toList then 1 else 0) + countBlobs tree := by
  simp only [countBlobs, List.filter_cons]
  split
  · next hb =>
    rw [if_pos (by simpa using hb)]
    simp [Nat.add_comm]
  · next hb =>
    rw [if_neg (by simpa using hb)]
    simp

theorem foldl_pi_count (tree : List TreeItem) :
    ∀ a : Analysis, (tree.foldl processItem a).file_count = a.file_count + countBlobs tree := by
  induction tree with
  | nil => intro a; simp [countBlobs]
  | cons i rest ih =>
    intro a
    rw [List.foldl_cons, ih, processItem_count, countBlobs_cons]
    omega

theorem foldl_pi_languages_good (tree : List TreeItem) :
    ∀ a : Analysis, (∀ kv ∈ a.languages, isExtKey kv.1) →
      ∀ kv ∈ (tree.foldl processItem a).languages, isExtKey kv.1 := by
  induction tree with
  | nil => intro a h; simpa using h
  | cons i rest ih =>
    intro a h
    rw [List.foldl_cons]
    exact ih _ (processItem_languages_good a i h)

theorem fetch_ok_core (url : List Char) (m : MetaResponse) (t : TreeResponse)
    (ra : RemoteAnalysis) (h : fetch_github_repo_structure url m t = .ok ra) :
    ra.core = t.tree.foldl processItem initAnalysis := by
  rcases hp : parseGithubUrl url with _ | ⟨o, r⟩ <;>
    simp only [fetch_github_repo_structure, hp] at h
  · exact absurd h (by simp)
  · split at h
    · exact absurd h (by simp)
    · split at h
      · exact absurd h (by simp)
      · injection h with h
        rw [← h]
        rfl

theorem foldl_plf_files_le (rel : List Char) (fs : List (List Char)) :
    ∀ a : Analysis, a.files.length ≤ 100 →
      (fs.foldl (processLocalFile rel) a).files.length ≤ 100 := by
  induction fs with
  | nil => intro a h; simpa using h
  | cons f rest ih =>
    intro a h
    rw [List.foldl_cons]
    exact ih _ (processFile_files_le a _ f h)

theorem foldl_plf_count (rel : List Char) (fs : List (List Char)) :
    ∀ a : Analysis, (fs.foldl (processLocalFile rel) a).file_count = a.file_count + fs.length := by
  induction fs with
  | nil => intro a; simp
  | cons f rest ih =>
    intro a
    rw [List.foldl_cons, ih]
    have : (processLocalFile rel a f).file_count = a.file_count + 1 := processFile_count a _ f
    rw [this, List.length_cons]
    omega

theorem foldl_plf_languages_good (rel : List Char) (fs : List (List Char)) :
    ∀ a : Analysis, (∀ kv ∈ a.languages, isExtKey kv.1) →
      ∀ kv ∈ (fs.foldl (processLocalFile rel) a).languages, isExtKey kv.1 := by
  induction fs with
  | nil => intro a h; simpa using h
  | cons f rest ih =>
    intro a h
    rw [List.foldl_cons]
    exact ih _ (processFile_languages_good a _ f h)

theorem dirStep_shape (rel : List Char) (a : Analysis) (entries : FsEntries) :
    (dirStep rel a entries).files = a.files ∧
    (dirStep rel a entries).languages = a.languages ∧
    (dirStep rel a entries).file_count = a.file_count := by
  simp only [dirStep]
  split <;> simp

mutual

theorem walkDir_files_le : ∀ (rel : List Char) (a : Analysis) (d : FsDir),
    a.files.length ≤ 100 → (walkDir rel a d).files.length ≤ 100
  | rel, a, .mk fs entries, h => by
    rw [walkDir]
    apply walkEntries_files_le
    rw [(dirStep_shape rel _ entries).1]
    exact foldl_plf_files_le rel fs a h

theorem walkEntries_files_le : ∀ (rel : List Char) (a : Analysis) (es : FsEntries),
    a.files.length ≤ 100 → (walkEntries rel a es).files.length ≤ 100
  | rel, a, .nil, h => by
    rw [walkEntries]
    exact h
  | rel, a, .cons n d rest, h => by
    rw [walkEntries]
    split
    · exact walkEntries_files_le rel a rest h
    · exact walkEntries_files_le rel _ rest (walkDir_files_le _ a d h)

end

mutual

theorem walkDir_count : ∀ (rel : List Char) (a : Analysis) (d : FsDir),
    (walkDir rel a d).file_count = a.file_count + countFilesD d
  | rel, a, .mk fs entries => by
    rw [walkDir, countFilesD, walkEntries_count, (dirStep_shape rel _ entries).2.2,
      foldl_plf_count]
    omega

theorem walkEntries_count : ∀ (rel : List Char) (a : Analysis) (es : FsEntries),
    (walkEntries rel a es).file_count = a.file_count + countFilesE es
  | rel, a, .nil => by
    rw [walkEntries, countFilesE]
    omega
  | rel, a, .cons n d rest => by
    rw [walkEntries, countFilesE]
    split
    · rw [walkEntries_count]
      omega
    · rw [walkEntries_count, walkDir_count]
      omega

end

mutual

theorem walkDir_languages_good : ∀ (rel : List Char) (a : Analysis) (d : FsDir),
    (∀ kv ∈ a.languages, isExtKey kv.1) →
      ∀ kv ∈ (walkDir rel a d).languages, isExtKey kv.1
  | rel, a, .mk fs entries, h => by
    rw [walkDir]
    apply walkEntries_languages_good
    rw [(dirStep_shape rel _ entries).2.1]
    exact foldl_plf_languages_good rel fs a h

theorem walkEntries_languages_good : ∀ (rel : List Char) (a : Analysis) (es : FsEntries),
    (∀ kv ∈ a.languages, isExtKey kv.1) →
      ∀ kv ∈ (walkEntries rel a es).languages, isExtKey kv.1
  | rel, a, .nil, h => by
    rw [walkEntries]
    exact h
  | rel, a, .cons n d rest, h => by
    rw [walkEntries]
    split
    · exact walkEntries_languages_good rel a rest h
    · exact walkEntries_languages_good rel _ rest (walkDir_languages_good _ a d h)

end

theorem keptNames_removeDenied : ∀ es : FsEntries,
    keptNames (removeDeniedE es) = keptNames es
  | .nil => rfl
  | .cons n d rest => by
    rw [removeDeniedE]
    split
    · next hd =>
      rw [keptNames_removeDenied rest, keptNames, if_pos hd]
    · next hd =>
      rw [keptNames, keptNames, if_neg hd, if_neg hd, keptNames_removeDenied rest]

theorem dirStep_removeDenied (rel : List Char) (a : Analysis) (es : FsEntries) :
    dirStep rel a (removeDeniedE es) = dirStep rel a es := by
  simp only [dirStep, keptNames_removeDenied]

mutual

theorem walkDir_removeDenied : ∀ (rel : List Char) (a : Analysis) (d : FsDir),
    walkDir rel a (removeDeniedD d) = walkDir rel a d
  | rel, a, .mk fs entries => by
    rw [removeDeniedD, walkDir, walkDir, dirStep_removeDenied,
      walkEntries_removeDenied]

theorem walkEntries_removeDenied : ∀ (rel : List Char) (a : Analysis) (es : FsEntries),
    walkEntries rel a (removeDeniedE es) = walkEntries rel a es
  | rel, a, .nil => by
    rw [removeDeniedE]
  | rel, a, .cons n d rest => by
    rw [removeDeniedE]
    split
    · next hd =>
      rw [walkEntries_removeDenied rel a rest, walkEntries, if_pos hd]
    · next hd =>
      rw [walkEntries, walkEntries, if_neg hd, if_neg hd, walkDir_removeDenied,
        walkEntries_removeDenied]

end

theorem replaceAll_not_contains (pat rep : List Char) :
    ∀ s : List Char, containsSub pat s = false → replaceAll pat rep s = s
  | [], _ => by rw [replaceAll]
  | c :: rest, h => by
    rw [containsSub, Bool.or_eq_false_iff] at h
    rw [replaceAll, if_neg]
    · rw [replaceAll_not_contains pat rep rest h.2]
    · intro hc
      rw [h.1] at hc
      exact Bool.false_ne_true hc.2

theorem replaceAll_marker_head (pat rep s : List Char) (hp : pat ≠ []) :
    replaceAll pat rep (pat ++ s) = rep ++ replaceAll pat rep s := by
  obtain ⟨p, ps, rfl⟩ : ∃ p ps, pat = p :: ps := by
    cases pat with
    | nil => exact absurd rfl hp
    | cons p ps => exact ⟨p, ps, rfl⟩
  rw [List.cons_append, replaceAll, if_pos]
  · rw [List.length_cons]
    simp only [Nat.add_sub_cancel]
    rw [List.drop_left]
  · refine ⟨hp, ?_⟩
    rw [← List.cons_append]
    simp

theorem dropWhile_append_split (p : Char → Bool) :
    ∀ l1 l2 : List Char, (l1 ++ l2).dropWhile p =
      if (l1.dropWhile p).isEmpty then l2.dropWhile p else l1.dropWhile p ++ l2
  | [], l2 => by simp
  | c :: t, l2 => by
    by_cases hc : p c
    · rw [List.cons_append, List.dropWhile_cons_of_pos hc, List.dropWhile_cons_of_pos hc,
        dropWhile_append_split p t l2]
    · rw [List.cons_append, List.dropWhile_cons_of_neg hc, List.dropWhile_cons_of_neg hc]
      simp

theorem dropWhile_of_head_neg (p : Char → Bool) (c : Char) (t : List Char) (hc : ¬ p c) :
    (c :: t).dropWhile p = c :: t :=
  List.dropWhile_cons_of_neg hc

theorem dropTrail_append (X e : List Char) (hX : ∀ c, X.getLast? = some c → ¬ isSlash c) :
    dropTrail (X ++ e) = X ++ dropTrail e := by
  simp only [dropTrail, List.reverse_append]
  rw [dropWhile_append_split]
  split
  · next hemp =>
    have he : e.reverse.dropWhile isSlash = [] := by
      simpa [List.isEmpty_iff] using hemp
    rw [he]
    cases hXr : X.reverse with
    | nil =>
      have : X = [] := by simpa using congrArg List.reverse hXr
      simp [this]
    | cons c t =>
      have hlast : X.getLast? = some c := by
        rw [List.getLast?_eq_head?_reverse, hXr]
        rfl
      rw [List.dropWhile_cons_of_neg (hX c hlast), ← hXr]
      simp
  · next hemp =>
    rw [List.reverse_append]
    congr 1
    rw [List.reverse_reverse]

theorem splitOnSlash_ne_nil : ∀ s : List Char, splitOnSlash s ≠ []
  | [] => by rw [splitOnSlash]; simp
  | c :: rest => by
    rw [splitOnSlash]
    split
    · simp
    · split
      · simp
      · simp

theorem splitOnSlash_no_slash : ∀ a : List Char, '/' ∉ a → splitOnSlash a = [a]
  | [], _ => by rw [splitOnSlash]
  | c :: t, h => by
    rw [splitOnSlash, if_neg, splitOnSlash_no_slash t (fun hm => h (List.mem_cons_of_mem c hm))]
    simp only [isSlash, beq_iff_eq]
    intro hc
    exact h (by rw [hc]; exact List.mem_cons_self _ _)

theorem splitOnSlash_append (b : List Char) :
    ∀ a : List Char, '/' ∉ a → splitOnSlash (a ++ '/' :: b) = a :: splitOnSlash b
  | [], _ => by
    rw [List.nil_append, splitOnSlash, if_pos]
    rfl
  | c :: t, h => by
    rw [List.cons_append, splitOnSlash, if_neg,
      splitOnSlash_append b t (fun hm => h (List.mem_cons_of_mem c hm))]
    simp only [isSlash, beq_iff_eq]
    intro hc
    exact h (by rw [hc]; exact List.mem_cons_self _ _)

theorem dropTrail_shape (s : List Char) :
    dropTrail s = [] ∨ (s ≠ [] → ∀ c t, s = c :: t → ∃ t2, dropTrail s = c :: t2) := by
  have hpre : dropTrail s <+: s := by
    simp only [dropTrail]
    have hsuf : s.reverse.dropWhile isSlash <:+ s.reverse := List.dropWhile_suffix isSlash
    have h2 : (s.reverse.dropWhile isSlash).reverse <+: s.reverse.reverse :=
      List.reverse_prefix.mpr hsuf
    rw [List.reverse_reverse] at h2
    exact h2
  cases hd : dropTrail s with
  | nil => exact Or.inl rfl
  | cons x t2 =>
    refine Or.inr (fun _ c t hs => ?_)
    rw [hd] at hpre
    obtain ⟨rest, hrest⟩ := hpre
    rw [hs] at hrest
    rw [List.cons_append] at hrest
    injection hrest with h1 _
    exact ⟨t2, by rw [h1]⟩

theorem lastNotSlash (A repo : List Char) (h3 : repo ≠ []) (h4 : '/' ∉ repo) :
    ∀ x, (A ++ '/' :: repo).getLast? = some x → ¬ isSlash x := by
  intro x hx
  obtain ⟨r0, rt, rfl⟩ : ∃ r0 rt, repo = r0 :: rt := by
    cases repo with
    | nil => exact absurd rfl h3
    | cons r0 rt => exact ⟨r0, rt, rfl⟩
  rw [List.getLast?_append, List.getLast?_cons_cons] at hx
  cases hr : (r0 :: rt).getLast? with
  | none =>
    rw [List.getLast?_eq_none_iff] at hr
    exact absurd hr (by simp)
  | some v =>
    rw [hr, Option.or_some] at hx
    injection hx with hvx
    have hv : v ∈ r0 :: rt := List.mem_of_getLast?_eq_some hr
    rw [hvx] at hv
    simp only [isSlash, beq_iff_eq]
    intro hxs
    rw [hxs] at hv
    exact h4 hv

theorem stripSlashes_canonical (owner repo extra : List Char)
    (h1 : owner ≠ []) (h2 : '/' ∉ owner) (h3 : repo ≠ []) (h4 : '/' ∉ repo)
    (h5 : extra = [] ∨ ∃ e, extra = '/' :: e) :
    stripSlashes (owner ++ '/' :: (repo ++ extra)) = owner ++ '/' :: repo
      ∨ ∃ t2, stripSlashes (owner ++ '/' :: (repo ++ extra))
          = owner ++ '/' :: (repo ++ '/' :: t2) := by
  obtain ⟨c, t, rfl⟩ : ∃ c t, owner = c :: t := by
    cases owner with
    | nil => exact absurd rfl h1
    | cons c t => exact ⟨c, t, rfl⟩
  have hc : ¬ isSlash c := by
    simp only [isSlash, beq_iff_eq]
    intro hcc
    apply h2
    rw [← hcc]
    exact List.mem_cons_self _ _
  have hlead : stripSlashes ((c :: t) ++ '/' :: (repo ++ extra))
      = dropTrail ((c :: t) ++ '/' :: (repo ++ extra)) := by
    rw [stripSlashes, List.cons_append, List.dropWhile_cons_of_neg hc, ← List.cons_append]
  rcases h5 with rfl | ⟨e, rfl⟩
  · left
    rw [hlead, List.append_nil]
    have hD := dropTrail_append ((c :: t) ++ '/' :: repo) [] (lastNotSlash _ _ h3 h4)
    rw [List.append_nil] at hD
    have hnil : dropTrail ([] : List Char) = [] := rfl
    rw [hnil, List.append_nil] at hD
    exact hD
  · have hassoc : (c :: t) ++ '/' :: (repo ++ '/' :: e) = ((c :: t) ++ '/' :: repo) ++ '/' :: e := by
      simp
    rw [hlead, hassoc, dropTrail_append _ _ (lastNotSlash _ _ h3 h4)]
    rcases dropTrail_shape ('/' :: e) with hsh | hsh
    · left
      rw [hsh, List.append_nil]
    · obtain ⟨t2, ht2⟩ := hsh (by simp) '/' e rfl
      right
      refine ⟨t2, ?_⟩
      rw [ht2]
      simp

theorem take_eq_of_isPrefixOf_append (pat s B : List Char)
    (h : pat.isPrefixOf (s ++ B) = true) (hlen : s.length ≤ pat.length) :
    pat.take s.length = s := by
  have h' : pat <+: s ++ B := List.isPrefixOf_iff_prefix.mp h
  obtain ⟨t, ht⟩ := h'
  have h2 := congrArg (List.take s.length) ht
  rw [List.take_left' rfl] at h2
  have hL : (pat ++ t).take s.length = pat.take s.length := by
    conv_lhs => rw [← List.take_append_drop s.length pat, List.append_assoc]
    exact List.take_left' (by rw [List.length_take]; omega)
  rw [hL] at h2
  exact h2

theorem containsSub_append_short (pat B : List Char) :
    ∀ A : List Char, A.length < pat.length →
      (∀ s, s <:+ A → s ≠ [] → pat.take s.length ≠ s) →
      containsSub pat (A ++ B) = containsSub pat B
  | [], _, _ => by rw [List.nil_append]
  | c :: A', hshort, hA => by
    rw [List.cons_append, containsSub]
    have h1 : pat.isPrefixOf (c :: (A' ++ B)) = false := by
      cases hb : pat.isPrefixOf (c :: (A' ++ B)) with
      | false => rfl
      | true =>
        exfalso
        have heq : pat.take (c :: A').length = c :: A' := by
          apply take_eq_of_isPrefixOf_append pat (c :: A') B
          · exact hb
          · exact Nat.le_of_lt hshort
        exact hA (c :: A') (List.suffix_refl _) (by simp) heq
    rw [h1, Bool.false_or]
    apply containsSub_append_short pat B A'
    · rw [List.length_cons] at hshort
      omega
    · intro s hs hne
      exact hA s (hs.trans (List.suffix_cons c A')) hne

theorem contains_https_of_httpMarker (B : List Char)
    (hB : containsSub httpsMarker B = false) :
    containsSub httpsMarker (httpMarker ++ B) = false := by
  have hA : ∀ s, s <:+ httpMarker → s ≠ [] → httpsMarker.take s.length ≠ s := by
    have hdec : ∀ s ∈ httpMarker.tails, s ≠ [] → httpsMarker.take s.length ≠ s := by decide
    intro s hs hne
    exact hdec s ((List.mem_tails s httpMarker).mpr hs) hne
  rw [containsSub_append_short httpsMarker B httpMarker (by decide) hA]
  exact hB

theorem parse_of_replaced (url owner repo extra : List Char)
    (hrepl : replaceAll httpMarker [] (replaceAll httpsMarker [] url)
        = owner ++ '/' :: (repo ++ extra))
    (h1 : owner ≠ []) (h2 : '/' ∉ owner) (h3 : repo ≠ []) (h4 : '/' ∉ repo)
    (h5 : extra = [] ∨ ∃ e, extra = '/' :: e) :
    parseGithubUrl url = some (owner, repo) := by
  simp only [parseGithubUrl, hrepl]
  rcases stripSlashes_canonical owner repo extra h1 h2 h3 h4 h5 with hs | ⟨t2, hs⟩
  · rw [hs, if_pos (List.mem_append_right _ (List.mem_cons_self _ _)),
      splitOnSlash_append _ _ h2, splitOnSlash_no_slash _ h4]
  · rw [hs, if_pos (List.mem_append_right _ (List.mem_cons_self _ _)),
      splitOnSlash_append _ _ h2, splitOnSlash_append _ _ h4]

theorem parse_append_form (owner repo extra : List Char)
    (h1 : owner ≠ []) (h2 : '/' ∉ owner) (h3 : repo ≠ []) (h4 : '/' ∉ repo)
    (h5 : extra = [] ∨ ∃ e, extra = '/' :: e)
    (h6 : containsSub httpsMarker (owner ++ '/' :: (repo ++ extra)) = false)
    (h7 : containsSub httpMarker (owner ++ '/' :: (repo ++ extra)) = false) :
    parseGithubUrl (httpsMarker ++ owner ++ '/' :: (repo ++ extra)) = some (owner, repo) := by
  apply parse_of_replaced _ owner repo extra _ h1 h2 h3 h4 h5
  rw [List.append_assoc, replaceAll_marker_head _ _ _ (by decide),
    replaceAll_not_contains _ _ _ h6, List.nil_append,
    replaceAll_not_contains _ _ _ h7]

theorem parse_append_form_http (owner repo extra : List Char)
    (h1 : owner ≠ []) (h2 : '/' ∉ owner) (h3 : repo ≠ []) (h4 : '/' ∉ repo)
    (h5 : extra = [] ∨ ∃ e, extra = '/' :: e)
    (h6 : containsSub httpsMarker (owner ++ '/' :: (repo ++ extra)) = false)
    (h7 : containsSub httpMarker (owner ++ '/' :: (repo ++ extra)) = false) :
    parseGithubUrl (httpMarker ++ owner ++ '/' :: (repo ++ extra)) = some (owner, repo) := by
  apply parse_of_replaced _ owner repo extra _ h1 h2 h3 h4 h5
  rw [List.append_assoc,
    replaceAll_not_contains httpsMarker [] _ (contains_https_of_httpMarker _ h6),
    replaceAll_marker_head _ _ _ (by decide),
    replaceAll_not_contains _ _ _ h7, List.nil_append]

set_option maxRecDepth 8000

theorem parse_acme_widget :
    parseGithubUrl "https://github.com/acme/widget".toList
      = some ("acme".toList, "widget".toList) := by
  have hurl : "https://github.com/acme/widget".toList
      = httpsMarker ++ "acme".toList ++ '/' :: ("widget".toList ++ []) := by decide
  rw [hurl]
  exact parse_append_form _ _ _ (by decide) (by decide) (by decide) (by decide)
    (Or.inl rfl) (by decide) (by decide)

theorem fetch_c4_ok :
    fetch_github_repo_structure "https://github.com/acme/widget".toList
        ⟨200, sampleMeta⟩ ⟨200, none, c4Tree⟩
      = Except.ok (mkRemoteAnalysis "https://github.com/acme/widget".toList
          "acme".toList sampleMeta c4Tree) := by
  simp only [fetch_github_repo_structure, parse_acme_widget]
  rw [if_neg (fun h => h rfl), if_neg (fun h => h rfl)]

/-- Claim C1, counterexample: a local scan of a directory with 51
subdirectories produces a sampleDirectories list of length 51, because
app.py line 174 checks the cap before extending with a whole batch.  So the
claimed 50-entry bound fails in local mode. -/
theorem C1_counterexample :
    ¬ ((analyze_local_directory c1Local).directories.length ≤ 50) := by decide

/-- Claim C1, amended: in remote mode every successful fetch has at most
100 sample files and at most 50 sample directories; in local mode the
sample files are capped at 100, but the directory sample can exceed 50
(see the counterexample), since whole per-directory batches are appended
whenever the current length is below 50. -/
theorem C1_amended :
    (∀ url m t ra, fetch_github_repo_structure url m t = Except.ok ra →
        ra.core.files.length ≤ 100 ∧ ra.core.directories.length ≤ 50)
    ∧ ∀ d : FsDir, (analyze_local_directory d).files.length ≤ 100 := by
  constructor
  · intro url m t ra h
    rw [fetch_ok_core url m t ra h]
    exact ⟨foldl_pi_files_le _ _ (by simp [initAnalysis]),
      foldl_pi_dirs_le _ _ (by simp [initAnalysis])⟩
  · intro d
    exact walkDir_files_le _ _ d (by simp [initAnalysis])

/-- Claim C1, witness for the amended theorem at a concrete fetch. -/
theorem C1_witness :
    (mkRemoteAnalysis "https://github.com/acme/widget".toList "acme".toList
        sampleMeta c4Tree).core.files.length ≤ 100
    ∧ (mkRemoteAnalysis "https://github.com/acme/widget".toList "acme".toList
        sampleMeta c4Tree).core.directories.length ≤ 50 :=
  C1_amended.1 _ ⟨200, sampleMeta⟩ ⟨200, none, c4Tree⟩ _ fetch_c4_ok

/-- Claim C2, counterexample: a file named requirements-test.txt is not in
the dependency-manifest list (which holds requirements.txt and
requirements-dev.txt but not requirements-test.txt), so it falls through
to the test rule and sets hasTests, contradicting the claim that it
matches category 1 and never sets the test flag. -/
theorem C2_counterexample :
    (processFile initAnalysis "requirements-test.txt".toList
        "requirements-test.txt".toList).has_tests = true
    ∧ (processFile initAnalysis "requirements-test.txt".toList
        "requirements-test.txt".toList).has_requirements = false := by
  constructor
  · decide
  · decide

/-- Claim C2, amended: a filename whose lowercase form is in one of the
three exact-match category lists never changes hasTests, even if it
contains the substring test; but requirements-test.txt belongs to no
exact-match category, so it does set the test flag and leaves the
dependency flag unchanged. -/
theorem C2_amended :
    (∀ a s n, (pyLower n ∈ reqNames ∨ pyLower n ∈ pkgNames ∨ pyLower n ∈ dockerNames) →
        (processFile a s n).has_tests = a.has_tests)
    ∧ (processFile initAnalysis "requirements-test.txt".toList
        "requirements-test.txt".toList).has_tests = true
    ∧ (processFile initAnalysis "requirements-test.txt".toList
        "requirements-test.txt".toList).has_requirements = false := by
  refine ⟨fun a s n h => processFile_tests_of_marker a s n h, by decide, by decide⟩

/-- Claim C2, witness: the exclusivity part applied to requirements.txt,
whose lowercase form is in the dependency-manifest list. -/
theorem C2_witness :
    (processFile initAnalysis "requirements.txt".toList
        "requirements.txt".toList).has_tests = initAnalysis.has_tests :=
  C2_amended.1 initAnalysis "requirements.txt".toList "requirements.txt".toList
    (Or.inl (by decide))

/-- Claim C3: in remote mode fileCount equals the number of blob entries of
the tree listing, and in local mode it equals the number of files the
pruned walk observes, independently of the 100-entry sample cap. -/
theorem C3_filecount_total :
    (∀ url m t ra, fetch_github_repo_structure url m t = Except.ok ra →
        ra.core.file_count = countBlobs t.tree)
    ∧ ∀ d : FsDir, (analyze_local_directory d).file_count = countFilesD d := by
  constructor
  · intro url m t ra h
    rw [fetch_ok_core url m t ra h, foldl_pi_count]
    simp [initAnalysis]
  · intro d
    rw [analyze_local_directory, walkDir_count]
    simp [initAnalysis]

/-- Claim C3, witness at a concrete fetch. -/
theorem C3_witness :
    (mkRemoteAnalysis "https://github.com/acme/widget".toList "acme".toList
        sampleMeta c4Tree).core.file_count = countBlobs c4Tree :=
  C3_filecount_total.1 _ ⟨200, sampleMeta⟩ ⟨200, none, c4Tree⟩ _ fetch_c4_ok

/-- Claim C4: fetching https-github acme/widget with a tree of exactly
requirements.txt, src/main.py, test_main.py and Dockerfile succeeds (for
any metadata body) with hasDependencyManifest, hasContainerDefinition and
hasTests set, fileCount 4, and extension histogram .txt to 1 and .py to 2. -/
theorem C4_remote_scenario : ∀ mj : RepoMetaJson,
    ∃ ra, fetch_github_repo_structure "https://github.com/acme/widget".toList
          ⟨200, mj⟩ ⟨200, none, c4Tree⟩ = Except.ok ra
      ∧ ra.core.has_requirements = true ∧ ra.core.has_dockerfile = true
      ∧ ra.core.has_tests = true ∧ ra.core.file_count = 4
      ∧ ra.core.languages = [(".txt".toList, 1), (".py".toList, 2)] := by
  intro mj
  have hc : (mkRemoteAnalysis "https://github.com/acme/widget".toList "acme".toList
      mj c4Tree).core = c4Tree.foldl processItem initAnalysis := rfl
  refine ⟨mkRemoteAnalysis "https://github.com/acme/widget".toList "acme".toList mj c4Tree,
    ?_, ?_, ?_, ?_, ?_, ?_⟩
  · simp only [fetch_github_repo_structure, parse_acme_widget]
    rw [if_neg (fun h => h rfl), if_neg (fun h => h rfl)]
  · rw [hc]; decide
  · rw [hc]; decide
  · rw [hc]; decide
  · rw [hc]; decide
  · rw [hc]; decide

/-- Claim C5: every key of the extension histogram, in either mode, starts
with the separator dot and contains no ASCII uppercase letter (the
lowercase guarantee of the ASCII model of str.lower); and a file whose
name has an empty suffix increments fileCount by one while leaving the
histogram unchanged. -/
theorem C5_histogram_keys :
    (∀ url m t ra, fetch_github_repo_structure url m t = Except.ok ra →
        ∀ kv ∈ ra.core.languages, isExtKey kv.1)
    ∧ (∀ d : FsDir, ∀ kv ∈ (analyze_local_directory d).languages, isExtKey kv.1)
    ∧ ∀ a s n, pySuffix n = [] →
        (processFile a s n).file_count = a.file_count + 1
        ∧ (processFile a s n).languages = a.languages := by
  refine ⟨?_, ?_, ?_⟩
  · intro url m t ra h
    rw [fetch_ok_core url m t ra h]
    apply foldl_pi_languages_good
    simp [initAnalysis]
  · intro d
    apply walkDir_languages_good
    simp [initAnalysis]
  · intro a s n h
    exact ⟨processFile_count a s n, processFile_noext a s n h⟩

/-- Claim C5, witness: a concrete remote key, a concrete local key, and
the extensionless file Dockerfile. -/
theorem C5_witness :
    isExtKey ".txt".toList ∧ isExtKey ".js".toList
    ∧ ((processFile initAnalysis "Dockerfile".toList "Dockerfile".toList).file_count
          = initAnalysis.file_count + 1
      ∧ (processFile initAnalysis "Dockerfile".toList "Dockerfile".toList).languages
          = initAnalysis.languages) :=
  ⟨C5_histogram_keys.1 _ ⟨200, sampleMeta⟩ ⟨200, none, c4Tree⟩ _ fetch_c4_ok
      (".txt".toList, 1) (by decide),
   C5_histogram_keys.2.1 c6Local (".js".toList, 1) (by decide),
   C5_histogram_keys.2.2 initAnalysis "Dockerfile".toList "Dockerfile".toList (by decide)⟩

/-- Claim C6: deleting every deny-listed subtree does not change the local
analysis at all (so such directories are never descended into, contribute
no directory samples and no file counts); in particular the scenario of a
node_modules subtree holding a package manifest beside one top-level
index.js yields fileCount 1, hasPackageManifest false, no sampled
directories and the single sampled file dot-slash index.js. -/
theorem C6_denylist_pruned :
    (∀ d : FsDir, analyze_local_directory (removeDeniedD d) = analyze_local_directory d)
    ∧ (analyze_local_directory c6Local).file_count = 1
    ∧ (analyze_local_directory c6Local).has_package_json = false
    ∧ (analyze_local_directory c6Local).directories = []
    ∧ (analyze_local_directory c6Local).files = [pyJoin ['.'] "index.js".toList] := by
  refine ⟨?_, by decide, by decide, by decide, by decide⟩
  intro d
  rw [analyze_local_directory, analyze_local_directory, walkDir_removeDenied]

/-- Claim C7, counterexample: on a failing tree call with status 403 and an
available provider message, the surfaced error is exactly the string
Error fetching tree: 403, which does not contain the provider message, so
the claim that both calls surface the provider message is false. -/
theorem C7_counterexample :
    fetch_github_repo_structure "https://github.com/acme/widget".toList
        ⟨200, sampleMeta⟩ c7TreeResp
      = Except.error "Error fetching tree: 403".toList
    ∧ containsSub "API rate limit exceeded".toList "Error fetching tree: 403".toList = false := by
  constructor
  · simp only [fetch_github_repo_structure, parse_acme_widget, c7TreeResp]
    rw [if_neg (fun h => h rfl), if_pos (by decide)]
    exact congrArg Except.error (by decide)
  · decide

/-- Claim C7, amended: when the metadata call fails, the error message
surfaces the status code and the provider message (or Unknown error);
when the tree call fails, the error message surfaces only the status
code. -/
theorem C7_amended (url : List Char) (m : MetaResponse) (t : TreeResponse)
    (o r : List Char) (hp : parseGithubUrl url = some (o, r)) :
    (m.status ≠ 200 → fetch_github_repo_structure url m t
        = Except.error ("Error: ".toList ++ natChars m.status ++ " - ".toList
            ++ m.json.message.getD "Unknown error".toList))
    ∧ (m.status = 200 → t.status ≠ 200 → fetch_github_repo_structure url m t
        = Except.error ("Error fetching tree: ".toList ++ natChars t.status)) := by
  constructor
  · intro hm
    simp only [fetch_github_repo_structure, hp]
    rw [if_pos hm]
  · intro hm ht
    simp only [fetch_github_repo_structure, hp]
    rw [if_neg (fun h => h hm), if_pos ht]

/-- Claim C7, witness: the amended theorem at a failing metadata call with
a provider message, and at a failing tree call. -/
theorem C7_witness :
    fetch_github_repo_structure "https://github.com/acme/widget".toList
        ⟨403, { sampleMeta with message := some "API rate limit exceeded".toList }⟩
        ⟨200, none, []⟩
      = Except.error ("Error: ".toList ++ natChars 403 ++ " - ".toList
          ++ (some "API rate limit exceeded".toList).getD "Unknown error".toList)
    ∧ fetch_github_repo_structure "https://github.com/acme/widget".toList
        ⟨200, sampleMeta⟩ c7TreeResp
      = Except.error ("Error fetching tree: ".toList ++ natChars c7TreeResp.status) :=
  ⟨(C7_amended _ _ _ _ _ parse_acme_widget).1 (by decide),
   (C7_amended _ _ _ _ _ parse_acme_widget).2 rfl (by decide)⟩

/-- Claim C8: when the reference, after the marker replacements and slash
stripping, contains no slash, the fetch returns the invalid-format error
and its result does not depend on either response, modelling that no
network data is consulted. -/
theorem C8_malformed_before_network (url : List Char)
    (h : '/' ∉ stripSlashes (replaceAll httpMarker [] (replaceAll httpsMarker [] url))) :
    (∀ m t, fetch_github_repo_structure url m t
        = Except.error "Invalid GitHub URL format".toList)
    ∧ ∀ m t m2 t2, fetch_github_repo_structure url m t
        = fetch_github_repo_structure url m2 t2 := by
  have hp : parseGithubUrl url = none := by
    simp only [parseGithubUrl]
    rw [if_neg h]
  constructor
  · intro m t
    simp only [fetch_github_repo_structure, hp]
  · intro m t m2 t2
    simp only [fetch_github_repo_structure, hp]

/-- Claim C8, witness at the malformed reference of the spec scenario. -/
theorem C8_witness :
    fetch_github_repo_structure "https://github.com/onlyowner".toList
        ⟨200, sampleMeta⟩ ⟨200, none, []⟩
      = Except.error "Invalid GitHub URL format".toList :=
  (C8_malformed_before_network _ (by
    have hurl : "https://github.com/onlyowner".toList
        = httpsMarker ++ "onlyowner".toList := by decide
    rw [hurl, replaceAll_marker_head _ _ _ (by decide),
      replaceAll_not_contains httpsMarker [] "onlyowner".toList (by decide),
      List.nil_append,
      replaceAll_not_contains httpMarker [] "onlyowner".toList (by decide)]
    decide)).1 ⟨200, sampleMeta⟩ ⟨200, none, []⟩

/-- Claim C9: the single-file fetch returns the first at-most-2000
characters of the decoded content on a 200 response whose decoding
succeeds, and returns none on a non-200 status, on a decode failure, and
on a transport failure. -/
theorem C9_file_content (resp : ContentResponse) (d : List Char) :
    (resp.status = 200 → resp.decoded = some d →
        fetch_github_file_content (some resp) = some (d.take 2000)
        ∧ (d.take 2000).length ≤ 2000
        ∧ d.take 2000 ++ d.drop 2000 = d)
    ∧ (resp.status ≠ 200 → fetch_github_file_content (some resp) = none)
    ∧ (resp.decoded = none → fetch_github_file_content (some resp) = none)
    ∧ fetch_github_file_content none = none := by
  refine ⟨?_, ?_, ?_, rfl⟩
  · intro hs hd
    refine ⟨?_, ?_, List.take_append_drop _ _⟩
    · simp only [fetch_github_file_content, hd]
      rw [if_pos hs]
    · rw [List.length_take]
      omega
  · intro hs
    simp only [fetch_github_file_content]
    rw [if_neg hs]
  · intro hd
    simp only [fetch_github_file_content, hd]
    split <;> rfl

/-- Claim C9, witness: a successful 200 response and a 404 response. -/
theorem C9_witness :
    fetch_github_file_content (some ⟨200, some "hello".toList⟩)
        = some ("hello".toList.take 2000)
    ∧ fetch_github_file_content (some ⟨404, some "hello".toList⟩) = none :=
  ⟨((C9_file_content ⟨200, some "hello".toList⟩ "hello".toList).1 rfl rfl).1,
   (C9_file_content ⟨404, some "hello".toList⟩ "hello".toList).2.1 (by decide)⟩

/-- Claim C10: for a reference formed from either the https or the http
github host marker followed by owner, slash, repo and extra trailing
segments (where owner and repo are nonempty and slash-free, the extra
part is empty or starts with a slash, and the markers do not reoccur in
the owner-repo-extra remainder), parsing yields exactly the owner and
repo, silently ignoring the extra segments. -/
theorem C10_extra_segments_ignored (owner repo extra : List Char)
    (h1 : owner ≠ []) (h2 : '/' ∉ owner) (h3 : repo ≠ []) (h4 : '/' ∉ repo)
    (h5 : extra = [] ∨ ∃ e, extra = '/' :: e)
    (h6 : containsSub httpsMarker (owner ++ '/' :: (repo ++ extra)) = false)
    (h7 : containsSub httpMarker (owner ++ '/' :: (repo ++ extra)) = false) :
    parseGithubUrl (httpsMarker ++ owner ++ '/' :: (repo ++ extra)) = some (owner, repo)
    ∧ parseGithubUrl (httpMarker ++ owner ++ '/' :: (repo ++ extra)) = some (owner, repo) :=
  ⟨parse_append_form owner repo extra h1 h2 h3 h4 h5 h6 h7,
   parse_append_form_http owner repo extra h1 h2 h3 h4 h5 h6 h7⟩

/-- Claim C10, witness: acme/widget with a trailing tree/main path, under
both host markers. -/
theorem C10_witness :
    parseGithubUrl (httpsMarker ++ "acme".toList ++ '/' :: ("widget".toList ++ "/tree/main".toList))
      = some ("acme".toList, "widget".toList)
    ∧ parseGithubUrl (httpMarker ++ "acme".toList ++ '/' :: ("widget".toList ++ "/tree/main".toList))
      = some ("acme".toList, "widget".toList) :=
  C10_extra_segments_ignored "acme".toList "widget".toList "/tree/main".toList
    (by decide) (by decide) (by decide) (by decide)
    (Or.inr ⟨"tree/main".toList, by decide⟩) (by decide) (by decide)

end App
